import Mathlib

/-!
Verification of the `solvent` dependency-resolver library.

The repository holds two near-identical engines:
* `src/dglr.rs` — edge collections are `Vec<String>` (insertion-ordered,
  duplicates preserved); deterministic traversal order.
* `src/lib.rs` — edge collections are `HashSet<String>` (deduplicated,
  unspecified iteration order).

The main embedding below (`DepGraph` and its operations) models the
deterministic `dglr.rs` engine field by field; the Rust `HashMap` of
dependency lists is modelled as an insertion-ordered association list
(the entry API keeps at most one entry per key), and the `HashSet`s
`satisfied` and `curpath`, used only through `insert`/`contains`, are
modelled as duplicate-free lists grown by `satInsert`.  The recursive
resolver `get_next_dependency` takes `&mut self` but only ever reads
`self.dependencies` and `self.satisfied` and only mutates `self.curpath`,
so it is embedded as a function of the two read fields that threads the
path explicitly and returns the final path; Rust's unbounded recursion
(which terminates because `curpath` grows inside a fixed key set, or
panics at a cycle) is embedded with an explicit fuel parameter, with the
lemma `getNextDependency_ne_noFuel` proving that the canonical fuel
`dependencies.length + 1` used by the iterators is never exhausted.

A second, smaller embedding (`SetDepGraph`) models the register
operations of the `src/lib.rs` engine, whose `HashSet<String>` edge
collections deduplicate on insert.
-/

/-- Insert into a set modelled as a duplicate-free list
(Rust `HashSet::insert`). -/
def satInsert (s : List String) (x : String) : List String :=
  if x ∈ s then s else s ++ [x]

/-- First-match lookup in an association list (Rust `HashMap::get`;
the entry API keeps keys unique, so first-match is the map lookup). -/
def lookupDeps : List (String × List String) → String → Option (List String)
  | [], _ => none
  | (k, v) :: rest, x => if k = x then some v else lookupDeps rest x

/-- `HashMap::entry` update for the `dglr.rs` engine: if the key exists,
append the new dependencies to its `Vec` (`push` / `push_all`, keeping
duplicates); otherwise append a fresh entry. -/
def addDeps : List (String × List String) → String → List String → List (String × List String)
  | [], thing, ds => [(thing, ds)]
  | (k, v) :: rest, thing, ds =>
    if k = thing then (k, v ++ ds) :: rest
    else (k, v) :: addDeps rest thing ds

/-- The `dglr.rs` dependency graph: `dependencies` is the
`HashMap<String, Vec<String>>`, `target` the optional target,
`satisfied` and `curpath` the two `HashSet<String>` fields. -/
structure DepGraph where
  dependencies : List (String × List String)
  target : Option String
  satisfied : List String
  curpath : List String
deriving Repr, DecidableEq

/-- `DepGraph::new()`. -/
def DepGraph.new : DepGraph :=
  { dependencies := [], target := none, satisfied := [], curpath := [] }

/-- `dglr.rs` `register_dependency`: push one dependency onto the
thing's `Vec` (creating the entry if absent). -/
def DepGraph.registerDependency (g : DepGraph) (thing dep : String) : DepGraph :=
  { g with dependencies := addDeps g.dependencies thing [dep] }

/-- `dglr.rs` `register_dependencies`: push all given dependencies onto
the thing's `Vec` (creating the entry if absent). -/
def DepGraph.registerDependencies (g : DepGraph) (thing : String) (ds : List String) : DepGraph :=
  { g with dependencies := addDeps g.dependencies thing ds }

/-- `set_target`. -/
def DepGraph.setTarget (g : DepGraph) (t : String) : DepGraph :=
  { g with target := some t }

/-- `mark_as_satisfied`: insert each given element into the satisfied set. -/
def DepGraph.markAsSatisfied (g : DepGraph) (things : List String) : DepGraph :=
  { g with satisfied := things.foldl satInsert g.satisfied }

/-- The `for n in deplist { if satisfied.contains(n) { continue; } return ... }`
scan: the first element of the list that is not in `sat`. -/
def firstUnsatisfied (sat : List String) : List String → Option String
  | [] => none
  | n :: rest => if n ∈ sat then firstUnsatisfied sat rest else some n

/-- Result of one `get_next_dependency` call: the returned element
together with the final `curpath` (the only field the Rust function
mutates), or the `panic!("Circular dependency graph at {}")` with the
revisited element, or fuel exhaustion (proved unreachable for the fuel
the iterators use). -/
inductive Resolution where
  | ok (item : String) (path : List String)
  | cycleAt (item : String) (path : List String)
  | noFuel
deriving Repr, DecidableEq

/-- `get_next_dependency(&mut self, thing)`: cycle check against
`curpath`, insert `thing` into `curpath`, return `thing` if it has no
entry or all its dependencies are satisfied, otherwise recurse on the
first unsatisfied dependency. -/
def getNextDependency (deps : List (String × List String)) (sat : List String) :
    Nat → List String → String → Resolution
  | 0, _, _ => .noFuel
  | fuel + 1, path, thing =>
    if thing ∈ path then .cycleAt thing path
    else
      let path1 := satInsert path thing
      match lookupDeps deps thing with
      | none => .ok thing path1
      | some deplist =>
        match firstUnsatisfied sat deplist with
        | none => .ok thing path1
        | some n => getNextDependency deps sat fuel path1 n

/-- Outcome of one `next()` call on either iterator: end of iteration,
a yielded element, or the cycle panic, each with the engine state after
the call. -/
inductive PullResult where
  | finished (g : DepGraph)
  | yields (item : String) (g : DepGraph)
  | cycleAt (item : String) (g : DepGraph)
deriving Repr, DecidableEq

/-- `DepGraphIterator::next`: end if the target is unset or satisfied,
otherwise clear `curpath` and run the resolver on the target.  The
`noFuel` branch is unreachable for this fuel
(`getNextDependency_ne_noFuel`). -/
def DepGraph.iterNext (g : DepGraph) : PullResult :=
  match g.target with
  | none => .finished g
  | some t =>
    if t ∈ g.satisfied then .finished g
    else
      match getNextDependency g.dependencies g.satisfied (g.dependencies.length + 1) [] t with
      | .ok item path => .yields item { g with curpath := path }
      | .cycleAt item path => .cycleAt item { g with curpath := path }
      | .noFuel => .finished g

/-- `DepGraphSatisfyingIterator::next`: as `iterNext`, but the yielded
element is marked satisfied before being returned. -/
def DepGraph.satisfyingNext (g : DepGraph) : PullResult :=
  match g.target with
  | none => .finished g
  | some t =>
    if t ∈ g.satisfied then .finished g
    else
      match getNextDependency g.dependencies g.satisfied (g.dependencies.length + 1) [] t with
      | .ok item path => .yields item (DepGraph.markAsSatisfied { g with curpath := path } [item])
      | .cycleAt item path => .cycleAt item { g with curpath := path }
      | .noFuel => .finished g

/-- Outcome of draining the auto-acknowledge iterator: the emitted
sequence plus how the loop ended. -/
inductive RunResult where
  | done (emitted : List String) (g : DepGraph)
  | cycleAt (item : String) (emitted : List String) (g : DepGraph)
  | noFuel (emitted : List String) (g : DepGraph)
deriving Repr, DecidableEq

/-- Prepend one emitted element to a run outcome. -/
def RunResult.consEmit (x : String) : RunResult → RunResult
  | .done l g => .done (x :: l) g
  | .cycleAt i l g => .cycleAt i (x :: l) g
  | .noFuel l g => .noFuel (x :: l) g

/-- Drain the auto-acknowledge iterator: pull until it finishes,
collecting the emitted elements (the `for node in depgraph.satisfying_iter()`
loop of the tests). -/
def runSatisfying : Nat → DepGraph → RunResult
  | 0, g => .noFuel [] g
  | fuel + 1, g =>
    match g.satisfyingNext with
    | .finished g' => .done [] g'
    | .yields item g' => (runSatisfying fuel g').consEmit item
    | .cycleAt item g' => .cycleAt item [] g'

/-- The emitted sequence of a run outcome. -/
def RunResult.emitted : RunResult → List String
  | .done l _ => l
  | .cycleAt _ l _ => l
  | .noFuel l _ => l

/-- Observable view of a pull, forgetting the engine state. -/
inductive PullView where
  | finished
  | yields (item : String)
  | cycleAt (item : String)
deriving Repr, DecidableEq

/-- Forget the state of a pull outcome. -/
def PullResult.view : PullResult → PullView
  | .finished _ => .finished
  | .yields item _ => .yields item
  | .cycleAt item _ => .cycleAt item

/-- Observable view of a run, forgetting the engine states. -/
inductive RunView where
  | done (emitted : List String)
  | cycleAt (item : String) (emitted : List String)
  | noFuel (emitted : List String)
deriving Repr, DecidableEq

/-- Forget the states of a run outcome. -/
def RunResult.view : RunResult → RunView
  | .done l _ => .done l
  | .cycleAt i l _ => .cycleAt i l
  | .noFuel l _ => .noFuel l

/-- One dependency edge: `b` is among the registered dependencies of `a`. -/
def EdgeRel (deps : List (String × List String)) (a b : String) : Prop :=
  ∃ l, lookupDeps deps a = some l ∧ b ∈ l

/-- Reachability along dependency edges (reflexive-transitive closure). -/
def Reach (deps : List (String × List String)) : String → String → Prop :=
  Relation.ReflTransGen (EdgeRel deps)

/-- The dependency relation has no cycle. -/
def Acyclic (deps : List (String × List String)) : Prop :=
  ∀ x, ¬ Relation.TransGen (EdgeRel deps) x x

/-- `HashSet::insert` for the `src/lib.rs` edge collections:
deduplicating insert. -/
def addDepSet : List (String × List String) → String → String → List (String × List String)
  | [], node, dep => [(node, [dep])]
  | (k, v) :: rest, node, dep =>
    if k = node then (k, satInsert v dep) :: rest
    else (k, v) :: addDepSet rest node dep

/-- The `src/lib.rs` dependency graph, whose edge collections are
`HashSet<String>` (modelled as duplicate-free lists). -/
structure SetDepGraph where
  dependencies : List (String × List String)
  target : Option String
  satisfied : List String
  curpath : List String
deriving Repr, DecidableEq

/-- `src/lib.rs` `DepGraph::new()`. -/
def SetDepGraph.new : SetDepGraph :=
  { dependencies := [], target := none, satisfied := [], curpath := [] }

/-- `src/lib.rs` `register_dependency`: `HashSet` insert of one
dependency into the node's edge set (creating the entry if absent). -/
def SetDepGraph.registerDependency (g : SetDepGraph) (node dep : String) : SetDepGraph :=
  { g with dependencies := addDepSet g.dependencies node dep }

/-- `src/lib.rs` `register_dependencies`: `HashSet` insert of each
given dependency into the node's edge set. -/
def SetDepGraph.registerDependencies (g : SetDepGraph) (node : String) (ds : List String) :
    SetDepGraph :=
  { g with dependencies := ds.foldl (fun acc d => addDepSet acc node d) g.dependencies }

/-- The branching test graph of `dglr_test_branching` (end-to-end
example A of the spec). -/
def exampleA : DepGraph :=
  (((((((((DepGraph.new.registerDependencies "a" ["b", "c", "d"]).registerDependency "b" "d").registerDependencies "c" ["e", "m", "g"]).registerDependency "e" "f").registerDependency "g" "h").registerDependency "h" "i").registerDependencies "i" ["j", "k"]).registerDependencies "k" ["l", "m"]).registerDependency "m" "n").setTarget "a"

/-- The test graph of `dglr_test_satisfying` (end-to-end example B of
the spec). -/
def exampleB : DepGraph :=
  (((DepGraph.new.registerDependencies "a" ["b", "c", "d"]).registerDependency "b" "d").registerDependencies "c" ["e"]).setTarget "a"

/-- The circular graph of `dglr_test_circular`. -/
def cycleGraph : DepGraph :=
  (((DepGraph.new.registerDependency "a" "b").registerDependency "b" "c").registerDependency "c" "a").setTarget "a"

/-- A graph whose target was never registered (an implicit leaf). -/
def leafG : DepGraph := DepGraph.new.setTarget "z"

/-- A small graph used to exercise empty registration. -/
def c10Base : DepGraph := (DepGraph.new.registerDependency "a" "b").setTarget "a"

/-- A rank function witnessing acyclicity of `exampleB`. -/
def rankB : String → Nat := fun s =>
  if s = "a" then 2 else if s = "b" ∨ s = "c" then 1 else 0

/-- Number of map keys not yet on the path: a bound on the remaining
recursion depth of the resolver. -/
def keysOutside (deps : List (String × List String)) (path : List String) : Nat :=
  ((deps.map Prod.fst).toFinset.filter (fun x => x ∉ path)).card

/-- Every string occurring in some dependency list. -/
def valuePool (deps : List (String × List String)) : List String :=
  (deps.map Prod.snd).flatten

/-- Number of distinct unsatisfied elements among the target and all
registered dependency values: a bound on the number of pulls the
auto-acknowledge iterator can still make. -/
def unsatMeasure (g : DepGraph) (t : String) : Nat :=
  ((t :: valuePool g.dependencies).toFinset.filter (fun x => x ∉ g.satisfied)).card

/-- Fuel that always drains the auto-acknowledge iterator. -/
def runFuel (g : DepGraph) : Nat :=
  (valuePool g.dependencies).length + 2

lemma mem_satInsert {s : List String} {x y : String} :
    y ∈ satInsert s x ↔ y ∈ s ∨ y = x := by
  unfold satInsert
  split
  · constructor
    · exact Or.inl
    · rintro (h | rfl) <;> assumption
  · simp [List.mem_append]

lemma self_mem_satInsert (s : List String) (x : String) : x ∈ satInsert s x :=
  mem_satInsert.mpr (Or.inr rfl)

lemma mem_satInsert_of_mem {s : List String} {y : String} (x : String) (h : y ∈ s) :
    y ∈ satInsert s x :=
  mem_satInsert.mpr (Or.inl h)

lemma satInsert_of_not_mem {s : List String} {x : String} (h : x ∉ s) :
    satInsert s x = s ++ [x] := by
  unfold satInsert
  simp [h]

lemma satInsert_of_mem {s : List String} {x : String} (h : x ∈ s) :
    satInsert s x = s := by
  unfold satInsert
  simp [h]

lemma lookupDeps_mem {deps : List (String × List String)} {x : String} {l : List String}
    (h : lookupDeps deps x = some l) : (x, l) ∈ deps := by
  induction deps with
  | nil => simp [lookupDeps] at h
  | cons p rest ih =>
    obtain ⟨k, v⟩ := p
    unfold lookupDeps at h
    by_cases hk : k = x
    · subst hk
      simp at h
      subst h
      exact List.mem_cons_self _ _
    · simp [hk] at h
      exact List.mem_cons_of_mem _ (ih h)

lemma lookupDeps_mem_keys {deps : List (String × List String)} {x : String} {l : List String}
    (h : lookupDeps deps x = some l) : x ∈ deps.map Prod.fst := by
  have := lookupDeps_mem h
  exact List.mem_map.mpr ⟨(x, l), this, rfl⟩

lemma firstUnsatisfied_eq_none {sat l : List String} :
    firstUnsatisfied sat l = none ↔ ∀ d ∈ l, d ∈ sat := by
  induction l with
  | nil => simp [firstUnsatisfied]
  | cons n rest ih =>
    unfold firstUnsatisfied
    by_cases hn : n ∈ sat
    · simp [hn, ih]
    · simp [hn]

lemma firstUnsatisfied_eq_some {sat l : List String} {n : String}
    (h : firstUnsatisfied sat l = some n) : n ∈ l ∧ n ∉ sat := by
  induction l with
  | nil => simp [firstUnsatisfied] at h
  | cons m rest ih =>
    unfold firstUnsatisfied at h
    by_cases hm : m ∈ sat
    · simp [hm] at h
      have := ih h
      exact ⟨List.mem_cons_of_mem _ this.1, this.2⟩
    · simp [hm] at h
      subst h
      exact ⟨List.mem_cons_self _ _, hm⟩

lemma firstUnsatisfied_append {sat pre : List String} {n : String} (post : List String)
    (hpre : ∀ p ∈ pre, p ∈ sat) (hn : n ∉ sat) :
    firstUnsatisfied sat (pre ++ n :: post) = some n := by
  induction pre with
  | nil => simp [firstUnsatisfied, hn]
  | cons p rest ih =>
    have hp : p ∈ sat := hpre p (List.mem_cons_self _ _)
    simp only [List.cons_append]
    unfold firstUnsatisfied
    simp [hp]
    exact ih fun q hq => hpre q (List.mem_cons_of_mem _ hq)


lemma keysOutside_satInsert_lt {deps : List (String × List String)} {path : List String}
    {thing : String} (hkey : thing ∈ deps.map Prod.fst) (hpath : thing ∉ path) :
    keysOutside deps (satInsert path thing) < keysOutside deps path := by
  apply Finset.card_lt_card
  rw [Finset.ssubset_iff_of_subset]
  · refine ⟨thing, ?_, ?_⟩
    · simp only [Finset.mem_filter, List.mem_toFinset]
      exact ⟨hkey, hpath⟩
    · simp only [Finset.mem_filter, List.mem_toFinset, not_and, not_not]
      intro _
      exact self_mem_satInsert _ _
  · intro y hy
    simp only [Finset.mem_filter, List.mem_toFinset] at hy ⊢
    exact ⟨hy.1, fun hmem => hy.2 (mem_satInsert_of_mem _ hmem)⟩

lemma keysOutside_le_length (deps : List (String × List String)) (path : List String) :
    keysOutside deps path ≤ deps.length := by
  calc keysOutside deps path ≤ (deps.map Prod.fst).toFinset.card := Finset.card_filter_le _ _
    _ ≤ (deps.map Prod.fst).length := List.toFinset_card_le _
    _ = deps.length := List.length_map _ _

lemma getNextDependency_ne_noFuel (deps : List (String × List String)) (sat : List String) :
    ∀ fuel path thing, keysOutside deps path < fuel →
      getNextDependency deps sat fuel path thing ≠ .noFuel := by
  intro fuel
  induction fuel with
  | zero => intro path thing h; omega
  | succ f ih =>
    intro path thing h hcon
    simp only [getNextDependency] at hcon
    split at hcon
    · simp at hcon
    · next hmem =>
      split at hcon
      · simp at hcon
      · next deplist heq =>
        split at hcon
        · simp at hcon
        · next n hfu =>
          have hkey := lookupDeps_mem_keys heq
          have hlt := keysOutside_satInsert_lt hkey hmem
          exact ih _ _ (by omega) hcon

lemma getNextDependency_ok_spec (deps : List (String × List String)) (sat : List String) :
    ∀ fuel path thing item rpath,
      getNextDependency deps sat fuel path thing = .ok item rpath →
      Relation.ReflTransGen (EdgeRel deps) thing item ∧
      (thing ∉ sat → item ∉ sat) ∧
      (∀ dl, lookupDeps deps item = some dl → ∀ d ∈ dl, d ∈ sat) := by
  intro fuel
  induction fuel with
  | zero => intro path thing item rpath h; simp [getNextDependency] at h
  | succ f ih =>
    intro path thing item rpath h
    simp only [getNextDependency] at h
    split at h
    · simp at h
    · next hmem =>
      split at h
      · next heq =>
        simp only [Resolution.ok.injEq] at h
        obtain ⟨rfl, rfl⟩ := h
        refine ⟨Relation.ReflTransGen.refl, fun hs => hs, ?_⟩
        intro dl hdl
        rw [heq] at hdl
        exact absurd hdl (by simp)
      · next deplist heq =>
        split at h
        · next hfu =>
          simp only [Resolution.ok.injEq] at h
          obtain ⟨rfl, rfl⟩ := h
          refine ⟨Relation.ReflTransGen.refl, fun hs => hs, ?_⟩
          intro dl hdl
          rw [heq] at hdl
          cases hdl
          exact firstUnsatisfied_eq_none.mp hfu
        · next n hfu =>
          have hn := firstUnsatisfied_eq_some hfu
          have hedge : EdgeRel deps thing n := ⟨deplist, heq, hn.1⟩
          have ihres := ih _ _ _ _ h
          exact ⟨Relation.ReflTransGen.head hedge ihres.1,
                 fun _ => ihres.2.1 hn.2, ihres.2.2⟩

lemma getNextDependency_cycle_spec (deps : List (String × List String)) (sat : List String) :
    ∀ fuel path thing c rpath,
      getNextDependency deps sat fuel path thing = .cycleAt c rpath →
      (∀ p ∈ path, Relation.TransGen (EdgeRel deps) p thing) →
      ∃ x, Relation.TransGen (EdgeRel deps) x x := by
  intro fuel
  induction fuel with
  | zero => intro path thing c rpath h; simp [getNextDependency] at h
  | succ f ih =>
    intro path thing c rpath h hpath
    simp only [getNextDependency] at h
    split at h
    · next hmem => exact ⟨thing, hpath thing hmem⟩
    · next hmem =>
      split at h
      · simp at h
      · next deplist heq =>
        split at h
        · simp at h
        · next n hfu =>
          have hn := firstUnsatisfied_eq_some hfu
          have hedge : EdgeRel deps thing n := ⟨deplist, heq, hn.1⟩
          refine ih _ _ _ _ h ?_
          intro p hp
          rcases mem_satInsert.mp hp with hp' | rfl
          · exact (hpath p hp').tail hedge
          · exact Relation.TransGen.single hedge

lemma resolver_ok_exists (deps : List (String × List String)) (sat : List String)
    (t : String) (hacyc : Acyclic deps) :
    ∃ item rpath, getNextDependency deps sat (deps.length + 1) [] t = .ok item rpath := by
  cases hres : getNextDependency deps sat (deps.length + 1) [] t with
  | ok item rpath => exact ⟨item, rpath, rfl⟩
  | cycleAt c rpath =>
    obtain ⟨x, hx⟩ := getNextDependency_cycle_spec deps sat _ _ _ _ _ hres (by simp)
    exact absurd hx (hacyc x)
  | noFuel =>
    have hb : keysOutside deps [] < deps.length + 1 :=
      Nat.lt_succ_of_le (keysOutside_le_length _ _)
    exact absurd hres (getNextDependency_ne_noFuel _ _ _ _ _ hb)

lemma getNextDependency_fuel_irrel (deps : List (String × List String)) (sat : List String) :
    ∀ f1 f2 path thing, keysOutside deps path < f1 → keysOutside deps path < f2 →
      getNextDependency deps sat f1 path thing = getNextDependency deps sat f2 path thing := by
  intro f1
  induction f1 with
  | zero => intro f2 path thing h1 _; omega
  | succ a ih =>
    intro f2 path thing h1 h2
    cases f2 with
    | zero => omega
    | succ b =>
      by_cases hmem : thing ∈ path
      · simp only [getNextDependency, if_pos hmem]
      · cases heq : lookupDeps deps thing with
        | none => simp only [getNextDependency, if_neg hmem, heq]
        | some deplist =>
          cases hfu : firstUnsatisfied sat deplist with
          | none => simp only [getNextDependency, if_neg hmem, heq, hfu]
          | some n =>
            simp only [getNextDependency, if_neg hmem, heq, hfu]
            have hkey := lookupDeps_mem_keys heq
            have hlt := keysOutside_satInsert_lt hkey hmem
            exact ih b (satInsert path thing) n (by omega) (by omega)

lemma markAsSatisfied_single (g : DepGraph) (x : String) :
    g.markAsSatisfied [x] = { g with satisfied := satInsert g.satisfied x } := rfl

lemma iterNext_eq_finished_of_target_none {g : DepGraph} (h : g.target = none) :
    g.iterNext = .finished g := by
  simp [DepGraph.iterNext, h]

lemma iterNext_eq_finished_of_satisfied {g : DepGraph} {t : String}
    (h1 : g.target = some t) (h2 : t ∈ g.satisfied) : g.iterNext = .finished g := by
  simp [DepGraph.iterNext, h1, h2]

lemma iterNext_eq_yields {g : DepGraph} {t item : String} {path : List String}
    (h1 : g.target = some t) (h2 : t ∉ g.satisfied)
    (hres : getNextDependency g.dependencies g.satisfied (g.dependencies.length + 1) [] t
      = .ok item path) :
    g.iterNext = .yields item { g with curpath := path } := by
  simp [DepGraph.iterNext, h1, h2, hres]

lemma satisfyingNext_eq_finished_of_target_none {g : DepGraph} (h : g.target = none) :
    g.satisfyingNext = .finished g := by
  simp [DepGraph.satisfyingNext, h]

lemma satisfyingNext_eq_finished_of_satisfied {g : DepGraph} {t : String}
    (h1 : g.target = some t) (h2 : t ∈ g.satisfied) : g.satisfyingNext = .finished g := by
  simp [DepGraph.satisfyingNext, h1, h2]

lemma satisfyingNext_eq_yields {g : DepGraph} {t item : String} {path : List String}
    (h1 : g.target = some t) (h2 : t ∉ g.satisfied)
    (hres : getNextDependency g.dependencies g.satisfied (g.dependencies.length + 1) [] t
      = .ok item path) :
    g.satisfyingNext
      = .yields item { g with curpath := path, satisfied := satInsert g.satisfied item } := by
  simp [DepGraph.satisfyingNext, h1, h2, hres]
  rfl

lemma iterNext_yields_inv {g : DepGraph} {item : String} {g' : DepGraph}
    (h : g.iterNext = .yields item g') :
    ∃ t path, g.target = some t ∧ t ∉ g.satisfied ∧
      getNextDependency g.dependencies g.satisfied (g.dependencies.length + 1) [] t
        = .ok item path ∧
      g' = { g with curpath := path } := by
  cases htgt : g.target with
  | none => rw [iterNext_eq_finished_of_target_none htgt] at h; simp at h
  | some t =>
    by_cases hsat : t ∈ g.satisfied
    · rw [iterNext_eq_finished_of_satisfied htgt hsat] at h; simp at h
    · cases hres : getNextDependency g.dependencies g.satisfied (g.dependencies.length + 1) [] t
        with
      | ok i p =>
        rw [iterNext_eq_yields htgt hsat hres] at h
        simp only [PullResult.yields.injEq] at h
        exact ⟨t, p, rfl, hsat, h.1 ▸ hres, by rw [← h.2, htgt]⟩
      | cycleAt i p =>
        simp [DepGraph.iterNext, htgt, hsat, hres] at h
      | noFuel =>
        have hb : keysOutside g.dependencies [] < g.dependencies.length + 1 :=
          Nat.lt_succ_of_le (keysOutside_le_length _ _)
        exact absurd hres (getNextDependency_ne_noFuel _ _ _ _ _ hb)

lemma satisfyingNext_yields_inv {g : DepGraph} {item : String} {g' : DepGraph}
    (h : g.satisfyingNext = .yields item g') :
    ∃ t path, g.target = some t ∧ t ∉ g.satisfied ∧
      getNextDependency g.dependencies g.satisfied (g.dependencies.length + 1) [] t
        = .ok item path ∧
      g' = { g with curpath := path, satisfied := satInsert g.satisfied item } := by
  cases htgt : g.target with
  | none => rw [satisfyingNext_eq_finished_of_target_none htgt] at h; simp at h
  | some t =>
    by_cases hsat : t ∈ g.satisfied
    · rw [satisfyingNext_eq_finished_of_satisfied htgt hsat] at h; simp at h
    · cases hres : getNextDependency g.dependencies g.satisfied (g.dependencies.length + 1) [] t
        with
      | ok i p =>
        rw [satisfyingNext_eq_yields htgt hsat hres] at h
        simp only [PullResult.yields.injEq] at h
        exact ⟨t, p, rfl, hsat, h.1 ▸ hres, by rw [← h.2, ← h.1, htgt]⟩
      | cycleAt i p =>
        simp [DepGraph.satisfyingNext, htgt, hsat, hres] at h
      | noFuel =>
        have hb : keysOutside g.dependencies [] < g.dependencies.length + 1 :=
          Nat.lt_succ_of_le (keysOutside_le_length _ _)
        exact absurd hres (getNextDependency_ne_noFuel _ _ _ _ _ hb)

lemma iterNext_cycle_inv {g : DepGraph} {item : String} {g' : DepGraph}
    (h : g.iterNext = .cycleAt item g') :
    ∃ t path, g.target = some t ∧ t ∉ g.satisfied ∧
      getNextDependency g.dependencies g.satisfied (g.dependencies.length + 1) [] t
        = .cycleAt item path ∧
      g' = { g with curpath := path } := by
  cases htgt : g.target with
  | none => rw [iterNext_eq_finished_of_target_none htgt] at h; simp at h
  | some t =>
    by_cases hsat : t ∈ g.satisfied
    · rw [iterNext_eq_finished_of_satisfied htgt hsat] at h; simp at h
    · cases hres : getNextDependency g.dependencies g.satisfied (g.dependencies.length + 1) [] t
        with
      | ok i p => simp [DepGraph.iterNext, htgt, hsat, hres] at h
      | cycleAt i p =>
        simp only [DepGraph.iterNext, htgt, if_neg hsat, hres,
          PullResult.cycleAt.injEq] at h
        exact ⟨t, p, rfl, hsat, h.1 ▸ hres, by rw [← h.2]⟩
      | noFuel =>
        have hb : keysOutside g.dependencies [] < g.dependencies.length + 1 :=
          Nat.lt_succ_of_le (keysOutside_le_length _ _)
        exact absurd hres (getNextDependency_ne_noFuel _ _ _ _ _ hb)

lemma satisfyingNext_cycle_inv {g : DepGraph} {item : String} {g' : DepGraph}
    (h : g.satisfyingNext = .cycleAt item g') :
    ∃ t path, g.target = some t ∧ t ∉ g.satisfied ∧
      getNextDependency g.dependencies g.satisfied (g.dependencies.length + 1) [] t
        = .cycleAt item path ∧
      g' = { g with curpath := path } := by
  cases htgt : g.target with
  | none => rw [satisfyingNext_eq_finished_of_target_none htgt] at h; simp at h
  | some t =>
    by_cases hsat : t ∈ g.satisfied
    · rw [satisfyingNext_eq_finished_of_satisfied htgt hsat] at h; simp at h
    · cases hres : getNextDependency g.dependencies g.satisfied (g.dependencies.length + 1) [] t
        with
      | ok i p => simp [DepGraph.satisfyingNext, htgt, hsat, hres] at h
      | cycleAt i p =>
        simp only [DepGraph.satisfyingNext, htgt, if_neg hsat, hres,
          PullResult.cycleAt.injEq] at h
        exact ⟨t, p, rfl, hsat, h.1 ▸ hres, by rw [← h.2]⟩
      | noFuel =>
        have hb : keysOutside g.dependencies [] < g.dependencies.length + 1 :=
          Nat.lt_succ_of_le (keysOutside_le_length _ _)
        exact absurd hres (getNextDependency_ne_noFuel _ _ _ _ _ hb)

lemma iterNext_finished_inv {g : DepGraph} {g' : DepGraph}
    (h : g.iterNext = .finished g') :
    g.target = none ∨ ∃ t, g.target = some t ∧ t ∈ g.satisfied := by
  cases htgt : g.target with
  | none => exact Or.inl rfl
  | some t =>
    by_cases hsat : t ∈ g.satisfied
    · exact Or.inr ⟨t, rfl, hsat⟩
    · exfalso
      cases hres : getNextDependency g.dependencies g.satisfied (g.dependencies.length + 1) [] t
        with
      | ok i p => rw [iterNext_eq_yields htgt hsat hres] at h; simp at h
      | cycleAt i p => simp [DepGraph.iterNext, htgt, hsat, hres] at h
      | noFuel =>
        have hb : keysOutside g.dependencies [] < g.dependencies.length + 1 :=
          Nat.lt_succ_of_le (keysOutside_le_length _ _)
        exact absurd hres (getNextDependency_ne_noFuel _ _ _ _ _ hb)


lemma edge_target_mem_valuePool {deps : List (String × List String)} {a b : String}
    (h : EdgeRel deps a b) : b ∈ valuePool deps := by
  obtain ⟨l, hl, hb⟩ := h
  have hmem := lookupDeps_mem hl
  exact List.mem_flatten.mpr ⟨l, List.mem_map.mpr ⟨(a, l), hmem, rfl⟩, hb⟩

lemma reach_cases {deps : List (String × List String)} {t x : String} (h : Reach deps t x) :
    x = t ∨ x ∈ valuePool deps := by
  rcases Relation.ReflTransGen.cases_tail h with h1 | ⟨c, _, hedge⟩
  · exact Or.inl h1
  · exact Or.inr (edge_target_mem_valuePool hedge)



lemma unsatMeasure_lt_runFuel (g : DepGraph) (t : String) : unsatMeasure g t < runFuel g := by
  have h1 : unsatMeasure g t ≤ (t :: valuePool g.dependencies).toFinset.card :=
    Finset.card_filter_le _ _
  have h2 : (t :: valuePool g.dependencies).toFinset.card
      ≤ (t :: valuePool g.dependencies).length := List.toFinset_card_le _
  simp only [List.length_cons] at h2
  simp only [runFuel]
  omega

lemma unsatMeasure_lt {g g2 : DepGraph} {t item : String}
    (hreach : Reach g.dependencies t item) (hns : item ∉ g.satisfied)
    (hdeps : g2.dependencies = g.dependencies)
    (hsat : g2.satisfied = satInsert g.satisfied item) :
    unsatMeasure g2 t < unsatMeasure g t := by
  apply Finset.card_lt_card
  simp only [unsatMeasure, hdeps, hsat]
  rw [Finset.ssubset_iff_of_subset]
  · refine ⟨item, ?_, ?_⟩
    · simp only [Finset.mem_filter, List.mem_toFinset, List.mem_cons]
      refine ⟨?_, hns⟩
      rcases reach_cases hreach with h | h
      · exact Or.inl h
      · exact Or.inr h
    · simp only [Finset.mem_filter, List.mem_toFinset, not_and, not_not]
      intro _
      exact self_mem_satInsert _ _
  · intro y hy
    simp only [Finset.mem_filter, List.mem_toFinset] at hy ⊢
    exact ⟨hy.1, fun hmem => hy.2 (mem_satInsert_of_mem _ hmem)⟩

/-- Main specification of draining the auto-acknowledge iterator on an
acyclic graph: the run ends normally; only the satisfied set grows, by
exactly the emitted elements in order; emitted elements are distinct,
previously unsatisfied, and reachable from the target; the target ends
satisfied; and every dependency of an emitted element was satisfied
before it, i.e. either initially or by an earlier emission. -/
lemma run_spec : ∀ fuel (g : DepGraph) (t : String), g.target = some t →
    Acyclic g.dependencies → unsatMeasure g t < fuel →
    ∃ out gfin, runSatisfying fuel g = .done out gfin ∧
      gfin.dependencies = g.dependencies ∧ gfin.target = g.target ∧
      gfin.satisfied = g.satisfied ++ out ∧
      out.Nodup ∧
      (∀ x ∈ out, x ∉ g.satisfied) ∧
      (∀ x ∈ out, Reach g.dependencies t x) ∧
      t ∈ g.satisfied ++ out ∧
      (∀ i (hi : i < out.length) dl,
        lookupDeps g.dependencies (out.get ⟨i, hi⟩) = some dl →
        ∀ d ∈ dl, d ∈ g.satisfied ∨ d ∈ out.take i) := by
  intro fuel
  induction fuel with
  | zero => intro g t ht hacyc hm; omega
  | succ f ih =>
    intro g t ht hacyc hm
    by_cases hsat : t ∈ g.satisfied
    · refine ⟨[], g, ?_, rfl, rfl, by simp, List.nodup_nil, by simp, by simp, by simp [hsat], ?_⟩
      · simp [runSatisfying, satisfyingNext_eq_finished_of_satisfied ht hsat]
      · intro i hi
        simp at hi
    · obtain ⟨item, path, hres⟩ := resolver_ok_exists g.dependencies g.satisfied t hacyc
      have hspec := getNextDependency_ok_spec g.dependencies g.satisfied _ _ _ _ _ hres
      have hnext := satisfyingNext_eq_yields ht hsat hres
      have hitem_ns : item ∉ g.satisfied := hspec.2.1 hsat
      have hreach : Reach g.dependencies t item := hspec.1
      have hm2 : unsatMeasure { g with curpath := path, satisfied := satInsert g.satisfied item } t
          < f := by
        have hlt : unsatMeasure { g with curpath := path, satisfied := satInsert g.satisfied item } t < unsatMeasure g t :=
          unsatMeasure_lt hreach hitem_ns rfl rfl
        omega
      obtain ⟨out, gfin, hrun, hd, htg, hs, hnodup, hdisj, hreachout, htmem, horder⟩ :=
        ih { g with curpath := path, satisfied := satInsert g.satisfied item } t ht hacyc hm2
      have hmark : satInsert g.satisfied item = g.satisfied ++ [item] :=
        satInsert_of_not_mem hitem_ns
      refine ⟨item :: out, gfin, ?_, hd, htg, ?_, ?_, ?_, ?_, ?_, ?_⟩
      · simp only [runSatisfying, hnext, hrun, RunResult.consEmit]
      · rw [hs]
        simp only [hmark]
        simp
      · refine List.nodup_cons.mpr ⟨?_, hnodup⟩
        intro hmem
        exact hdisj item hmem (self_mem_satInsert _ _)
      · intro x hx
        rcases List.mem_cons.mp hx with rfl | hx'
        · exact hitem_ns
        · exact fun hxg => hdisj x hx' (mem_satInsert_of_mem _ hxg)
      · intro x hx
        rcases List.mem_cons.mp hx with rfl | hx'
        · exact hreach
        · exact hreachout x hx'
      · have : t ∈ satInsert g.satisfied item ++ out := htmem
        rw [hmark] at this
        simp only [List.append_assoc] at this
        simpa using this
      · intro i hi dl hdl d hd'
        cases i with
        | zero =>
          have hget : (item :: out).get ⟨0, hi⟩ = item := rfl
          rw [hget] at hdl
          exact Or.inl (hspec.2.2 dl hdl d hd')
        | succ j =>
          have hj : j < out.length := by simpa using hi
          have hget : (item :: out).get ⟨j + 1, hi⟩ = out.get ⟨j, hj⟩ := rfl
          rw [hget] at hdl
          rcases horder j hj dl hdl d hd' with hin | htake
          · rw [hmark] at hin
            rcases List.mem_append.mp hin with h1 | h2
            · exact Or.inl h1
            · right
              simp at h2
              subst h2
              simp [List.take_succ_cons]
          · right
            simp only [List.take_succ_cons]
            exact List.mem_cons_of_mem _ htake

lemma reach_satisfied_of_closed {deps : List (String × List String)} {sat : List String}
    (hclosed : ∀ x ∈ sat, ∀ dl, lookupDeps deps x = some dl → ∀ d ∈ dl, d ∈ sat)
    {t x : String} (ht : t ∈ sat) (h : Reach deps t x) : x ∈ sat := by
  induction h with
  | refl => exact ht
  | tail hab hbc ih =>
    obtain ⟨l, hl, hc⟩ := hbc
    exact hclosed _ ih l hl _ hc

lemma transGen_rank {deps : List (String × List String)} {rank : String → Nat}
    (h : ∀ p ∈ deps, ∀ d ∈ p.2, rank d < rank p.1) :
    ∀ a b, Relation.TransGen (EdgeRel deps) a b → rank b < rank a := by
  intro a b htg
  induction htg with
  | single hedge =>
    obtain ⟨l, hl, hb⟩ := hedge
    exact h _ (lookupDeps_mem hl) _ hb
  | tail hab hbc ih =>
    rename_i b c
    obtain ⟨l, hl, hc⟩ := hbc
    have h2 : rank c < rank b := h (b, l) (lookupDeps_mem hl) c hc
    omega

lemma acyclic_of_rank (deps : List (String × List String)) (rank : String → Nat)
    (h : ∀ p ∈ deps, ∀ d ∈ p.2, rank d < rank p.1) : Acyclic deps :=
  fun x hx => absurd (transGen_rank h x x hx) (lt_irrefl _)

/-- Claim C1: for every acyclic dependency graph with a target set (and
a fresh, empty satisfied set), the auto-acknowledge producer emits every
identifier reachable from the target — the target included — exactly
once, and for each emitted identifier every one of its declared
dependencies appears strictly earlier in the emitted sequence. -/
theorem c1_auto_ack_topological (g : DepGraph) (t : String)
    (ht : g.target = some t) (hsat0 : g.satisfied = [])
    (hacyc : Acyclic g.dependencies) :
    ∃ out gfin, runSatisfying (runFuel g) g = .done out gfin ∧
      out.Nodup ∧
      (∀ x, Reach g.dependencies t x ↔ x ∈ out) ∧
      (∀ i (hi : i < out.length) dl,
        lookupDeps g.dependencies (out.get ⟨i, hi⟩) = some dl →
        ∀ d ∈ dl, d ∈ out.take i) := by
  obtain ⟨out, gfin, hrun, hd, htg, hs, hnodup, hdisj, hreachout, htmem, horder⟩ :=
    run_spec (runFuel g) g t ht hacyc (unsatMeasure_lt_runFuel g t)
  rw [hsat0] at htmem horder
  simp only [List.nil_append] at htmem
  have horder' : ∀ i (hi : i < out.length) dl,
      lookupDeps g.dependencies (out.get ⟨i, hi⟩) = some dl → ∀ d ∈ dl, d ∈ out.take i := by
    intro i hi dl hdl d hd
    rcases horder i hi dl hdl d hd with h1 | h2
    · simp at h1
    · exact h2
  have hclosed : ∀ x ∈ out, ∀ dl, lookupDeps g.dependencies x = some dl →
      ∀ d ∈ dl, d ∈ out := by
    intro x hx dl hdl d hd
    obtain ⟨n, hn⟩ := List.mem_iff_get.mp hx
    rw [← hn] at hdl
    exact List.take_subset _ _ (horder' n.1 n.2 dl hdl d hd)
  refine ⟨out, gfin, hrun, hnodup, ?_, horder'⟩
  intro x
  constructor
  · intro hx
    exact reach_satisfied_of_closed hclosed htmem hx
  · intro hx
    exact hreachout x hx

/-- Witness for C1 at the concrete test graph `exampleB`. -/
theorem c1_witness :
    exampleB.target = some "a" ∧ exampleB.satisfied = [] ∧ Acyclic exampleB.dependencies ∧
    (∃ out gfin, runSatisfying (runFuel exampleB) exampleB = .done out gfin ∧
      out.Nodup ∧
      (∀ x, Reach exampleB.dependencies "a" x ↔ x ∈ out) ∧
      (∀ i (hi : i < out.length) dl,
        lookupDeps exampleB.dependencies (out.get ⟨i, hi⟩) = some dl →
        ∀ d ∈ dl, d ∈ out.take i)) := by
  have hacyc : Acyclic exampleB.dependencies := acyclic_of_rank _ rankB (by decide)
  exact ⟨rfl, rfl, hacyc, c1_auto_ack_topological exampleB "a" rfl rfl hacyc⟩

/-- Claim C2: on the branching test graph (example A) with target `a`,
the auto-acknowledge sequence is exactly
`d, b, f, e, n, m, j, l, k, i, h, g, c, a` and the run ends normally. -/
theorem c2_branching_sequence :
    (runSatisfying (runFuel exampleA) exampleA).view
      = .done ["d", "b", "f", "e", "n", "m", "j", "l", "k", "i", "h", "g", "c", "a"] := by
  decide

/-- Claim C4: for an item not on the in-progress path, the resolver
returns the item itself when it has no entry in the dependency map or
when all its dependencies are satisfied; otherwise it recurses on the
first dependency in collection order that is not satisfied and returns
that recursion's result. -/
theorem c4_resolver_dispatch (deps : List (String × List String)) (sat path : List String)
    (item : String) (fuel : Nat) (hpath : item ∉ path) :
    (lookupDeps deps item = none →
      getNextDependency deps sat (fuel + 1) path item = .ok item (satInsert path item)) ∧
    (∀ dl, lookupDeps deps item = some dl → (∀ d ∈ dl, d ∈ sat) →
      getNextDependency deps sat (fuel + 1) path item = .ok item (satInsert path item)) ∧
    (∀ dl pre n post, lookupDeps deps item = some dl → dl = pre ++ n :: post →
      (∀ p ∈ pre, p ∈ sat) → n ∉ sat →
      getNextDependency deps sat (fuel + 1) path item
        = getNextDependency deps sat fuel (satInsert path item) n) := by
  refine ⟨?_, ?_, ?_⟩
  · intro hnone
    simp [getNextDependency, hpath, hnone]
  · intro dl hdl hall
    simp [getNextDependency, hpath, hdl, firstUnsatisfied_eq_none.mpr hall]
  · intro dl pre n post hdl hsplit hpre hn
    subst hsplit
    simp [getNextDependency, hpath, hdl, firstUnsatisfied_append post hpre hn]

/-- Witness for C4 at a concrete map, path and satisfied set. -/
theorem c4_witness :
    (("a" : String) ∉ ([] : List String)) ∧
    getNextDependency [("a", ["b", "c"])] ["b"] 4 [] "a"
      = getNextDependency [("a", ["b", "c"])] ["b"] 3 (satInsert [] "a") "c" := by
  refine ⟨by decide, ?_⟩
  exact (c4_resolver_dispatch [("a", ["b", "c"])] ["b"] [] "a" 3 (by decide)).2.2
    ["b", "c"] ["b"] "c" [] (by decide) rfl (by decide) (by decide)

/-- Claim C5: on the registered three-cycle with target `a`, one pull
from either producer stops with the cycle panic at the revisited
element `a` (it neither yields an identifier nor diverges). -/
theorem c5_cycle_detected :
    cycleGraph.iterNext = .cycleAt "a" { cycleGraph with curpath := ["a", "b", "c"] } ∧
    cycleGraph.satisfyingNext = .cycleAt "a" { cycleGraph with curpath := ["a", "b", "c"] } := by
  decide

/-- Claim C6: when a pull from either producer stops with the cycle
panic, the dependency map and the satisfied set are exactly what they
were when the pull began. -/
theorem c6_cycle_preserves_state (g : DepGraph) (item : String) (g' : DepGraph)
    (h : g.iterNext = .cycleAt item g' ∨ g.satisfyingNext = .cycleAt item g') :
    g'.dependencies = g.dependencies ∧ g'.satisfied = g.satisfied := by
  rcases h with h | h
  · obtain ⟨t, path, _, _, _, rfl⟩ := iterNext_cycle_inv h
    exact ⟨rfl, rfl⟩
  · obtain ⟨t, path, _, _, _, rfl⟩ := satisfyingNext_cycle_inv h
    exact ⟨rfl, rfl⟩

/-- Witness for C6 at the concrete three-cycle. -/
theorem c6_witness :
    cycleGraph.iterNext = .cycleAt "a" { cycleGraph with curpath := ["a", "b", "c"] } ∧
    ({ cycleGraph with curpath := ["a", "b", "c"] } : DepGraph).dependencies
      = cycleGraph.dependencies ∧
    ({ cycleGraph with curpath := ["a", "b", "c"] } : DepGraph).satisfied
      = cycleGraph.satisfied := by
  refine ⟨by decide, ?_⟩
  exact c6_cycle_preserves_state cycleGraph "a" { cycleGraph with curpath := ["a", "b", "c"] }
    (Or.inl (by decide))

/-- Claim C7: a manual-acknowledge pull produces nothing exactly when
the target is unset or already satisfied; otherwise it clears the
transient path and returns the resolver's result, it leaves the
dependency map, satisfied set and target unchanged, and an immediately
repeated pull returns the identical item and state. -/
theorem c7_manual_pull (g : DepGraph) :
    ((∃ g', g.iterNext = .finished g') ↔
      (g.target = none ∨ ∃ t, g.target = some t ∧ t ∈ g.satisfied)) ∧
    (∀ t item path, g.target = some t → t ∉ g.satisfied →
      getNextDependency g.dependencies g.satisfied (g.dependencies.length + 1) [] t
        = .ok item path →
      g.iterNext = .yields item { g with curpath := path }) ∧
    (∀ item g', g.iterNext = .yields item g' →
      g'.dependencies = g.dependencies ∧ g'.satisfied = g.satisfied ∧ g'.target = g.target ∧
      g'.iterNext = .yields item g') := by
  refine ⟨⟨?_, ?_⟩, ?_, ?_⟩
  · rintro ⟨g', hfin⟩
    exact iterNext_finished_inv hfin
  · rintro (hnone | ⟨t, ht, hts⟩)
    · exact ⟨g, iterNext_eq_finished_of_target_none hnone⟩
    · exact ⟨g, iterNext_eq_finished_of_satisfied ht hts⟩
  · intro t item path ht hns hres
    exact iterNext_eq_yields ht hns hres
  · intro item g' hy
    obtain ⟨t, path, ht, hns, hres, rfl⟩ := iterNext_yields_inv hy
    exact ⟨rfl, rfl, rfl, iterNext_eq_yields ht hns hres⟩

/-- Witness for C7 at a graph whose target is an unregistered leaf. -/
theorem c7_witness :
    leafG.target = some "z" ∧ ("z" ∉ leafG.satisfied) ∧
    getNextDependency leafG.dependencies leafG.satisfied (leafG.dependencies.length + 1) [] "z"
      = .ok "z" ["z"] ∧
    leafG.iterNext = .yields "z" { leafG with curpath := ["z"] } := by
  refine ⟨rfl, by decide, by decide, ?_⟩
  exact (c7_manual_pull leafG).2.1 "z" "z" ["z"] rfl (by decide) (by decide)

/-- Claim C8: an auto-acknowledge pull marks the resolved item
satisfied before returning it, and on any acyclic graph the drained
sequence is duplicate-free, consists of identifiers reachable from the
target (hence is no longer than any duplicate-free list containing all
of them), and produces nothing further once the target is emitted. -/
theorem c8_auto_ack_progress_finite (g : DepGraph) (t : String)
    (ht : g.target = some t) (hacyc : Acyclic g.dependencies) :
    (∀ item g', g.satisfyingNext = .yields item g' → item ∈ g'.satisfied) ∧
    (∃ out gfin, runSatisfying (runFuel g) g = .done out gfin ∧
      out.Nodup ∧ (∀ x ∈ out, Reach g.dependencies t x) ∧
      (∀ R : List String, R.Nodup → (∀ x, Reach g.dependencies t x → x ∈ R) →
        out.length ≤ R.length) ∧
      gfin.satisfyingNext = .finished gfin) := by
  constructor
  · intro item g' hy
    obtain ⟨t', path, _, _, _, rfl⟩ := satisfyingNext_yields_inv hy
    exact self_mem_satInsert _ _
  · obtain ⟨out, gfin, hrun, hd, htg, hs, hnodup, hdisj, hreachout, htmem, _⟩ :=
      run_spec (runFuel g) g t ht hacyc (unsatMeasure_lt_runFuel g t)
    refine ⟨out, gfin, hrun, hnodup, hreachout, ?_, ?_⟩
    · intro R hR hsub
      have hsubl : out ⊆ R := fun x hx => hsub x (hreachout x hx)
      exact (List.subperm_of_subset hnodup hsubl).length_le
    · have htfin : t ∈ gfin.satisfied := by rw [hs]; exact htmem
      have htg' : gfin.target = some t := by rw [htg]; exact ht
      exact satisfyingNext_eq_finished_of_satisfied htg' htfin

/-- Witness for C8 at the concrete test graph `exampleB`. -/
theorem c8_witness :
    exampleB.target = some "a" ∧ Acyclic exampleB.dependencies ∧
    ((∀ item g', exampleB.satisfyingNext = .yields item g' → item ∈ g'.satisfied) ∧
     (∃ out gfin, runSatisfying (runFuel exampleB) exampleB = .done out gfin ∧
       out.Nodup ∧ (∀ x ∈ out, Reach exampleB.dependencies "a" x) ∧
       (∀ R : List String, R.Nodup → (∀ x, Reach exampleB.dependencies "a" x → x ∈ R) →
         out.length ≤ R.length) ∧
       gfin.satisfyingNext = .finished gfin)) := by
  have hacyc : Acyclic exampleB.dependencies := acyclic_of_rank _ rankB (by decide)
  exact ⟨rfl, hacyc, c8_auto_ack_progress_finite exampleB "a" rfl hacyc⟩

/-- Claim C9: every identifier yielded by a successful pull of either
producer is immediately resolvable at that moment: it is not satisfied,
and it either has no entry in the dependency map or all of its
registered dependencies are satisfied. -/
theorem c9_returned_items_resolvable (g : DepGraph) (item : String) (g' : DepGraph)
    (h : g.iterNext = .yields item g' ∨ g.satisfyingNext = .yields item g') :
    item ∉ g.satisfied ∧
    (lookupDeps g.dependencies item = none ∨
      ∃ dl, lookupDeps g.dependencies item = some dl ∧ ∀ d ∈ dl, d ∈ g.satisfied) := by
  have key : ∃ t path, g.target = some t ∧ t ∉ g.satisfied ∧
      getNextDependency g.dependencies g.satisfied (g.dependencies.length + 1) [] t
        = .ok item path := by
    rcases h with h | h
    · obtain ⟨t, path, ht, hns, hres, _⟩ := iterNext_yields_inv h
      exact ⟨t, path, ht, hns, hres⟩
    · obtain ⟨t, path, ht, hns, hres, _⟩ := satisfyingNext_yields_inv h
      exact ⟨t, path, ht, hns, hres⟩
  obtain ⟨t, path, ht, hns, hres⟩ := key
  have hspec := getNextDependency_ok_spec g.dependencies g.satisfied _ _ _ _ _ hres
  refine ⟨hspec.2.1 hns, ?_⟩
  cases hlk : lookupDeps g.dependencies item with
  | none => exact Or.inl rfl
  | some dl => exact Or.inr ⟨dl, rfl, hspec.2.2 dl hlk⟩

/-- Witness for C9 at a graph whose target is an unregistered leaf. -/
theorem c9_witness :
    leafG.iterNext = .yields "z" { leafG with curpath := ["z"] } ∧
    (("z" ∉ leafG.satisfied) ∧
      (lookupDeps leafG.dependencies "z" = none ∨
        ∃ dl, lookupDeps leafG.dependencies "z" = some dl ∧ ∀ d ∈ dl, d ∈ leafG.satisfied)) := by
  refine ⟨by decide, ?_⟩
  exact c9_returned_items_resolvable leafG "z" { leafG with curpath := ["z"] } (Or.inl (by decide))

lemma iterNext_eq_cycle {g : DepGraph} {t item : String} {path : List String}
    (h1 : g.target = some t) (h2 : t ∉ g.satisfied)
    (hres : getNextDependency g.dependencies g.satisfied (g.dependencies.length + 1) [] t
      = .cycleAt item path) :
    g.iterNext = .cycleAt item { g with curpath := path } := by
  simp [DepGraph.iterNext, h1, h2, hres]

lemma satisfyingNext_eq_cycle {g : DepGraph} {t item : String} {path : List String}
    (h1 : g.target = some t) (h2 : t ∉ g.satisfied)
    (hres : getNextDependency g.dependencies g.satisfied (g.dependencies.length + 1) [] t
      = .cycleAt item path) :
    g.satisfyingNext = .cycleAt item { g with curpath := path } := by
  simp [DepGraph.satisfyingNext, h1, h2, hres]

lemma lookupDeps_addDeps_other {deps : List (String × List String)} {x y : String}
    (hxy : y ≠ x) (ds : List String) :
    lookupDeps (addDeps deps x ds) y = lookupDeps deps y := by
  have hxy' : x ≠ y := fun h => hxy h.symm
  induction deps with
  | nil => simp [addDeps, lookupDeps, hxy']
  | cons p rest ih =>
    obtain ⟨k, v⟩ := p
    by_cases hk : k = x
    · simp [addDeps, hk, lookupDeps, hxy']
    · by_cases hky : k = y
      · simp [addDeps, hk, lookupDeps, hky, hxy]
      · simp [addDeps, hk, lookupDeps, hky, ih]

lemma lookupDeps_addDeps_nil_self {deps : List (String × List String)} {x : String}
    (h : lookupDeps deps x = none) :
    lookupDeps (addDeps deps x []) x = some [] := by
  induction deps with
  | nil => simp [addDeps, lookupDeps]
  | cons p rest ih =>
    obtain ⟨k, v⟩ := p
    by_cases hk : k = x
    · subst hk
      simp [lookupDeps] at h
    · simp only [lookupDeps, if_neg hk] at h
      simp [addDeps, hk, lookupDeps, ih h]

lemma addDeps_length_ge (deps : List (String × List String)) (x : String) (ds : List String) :
    deps.length ≤ (addDeps deps x ds).length := by
  induction deps with
  | nil => simp [addDeps]
  | cons p rest ih =>
    obtain ⟨k, v⟩ := p
    by_cases hk : k = x
    · simp [addDeps, hk]
    · simp only [addDeps, if_neg hk, List.length_cons]
      omega

lemma getNextDependency_addDeps_nil {deps : List (String × List String)} {x : String}
    (h : lookupDeps deps x = none) (sat : List String) :
    ∀ fuel path thing,
      getNextDependency (addDeps deps x []) sat fuel path thing
        = getNextDependency deps sat fuel path thing := by
  intro fuel
  induction fuel with
  | zero => intro path thing; rfl
  | succ f ih =>
    intro path thing
    by_cases hmem : thing ∈ path
    · simp [getNextDependency, hmem]
    · by_cases hx : thing = x
      · subst hx
        simp [getNextDependency, hmem, lookupDeps_addDeps_nil_self h, h, firstUnsatisfied]
      · have hsame : lookupDeps (addDeps deps x []) thing = lookupDeps deps thing :=
          lookupDeps_addDeps_other hx []
        cases heq : lookupDeps deps thing with
        | none => simp [getNextDependency, hmem, hsame, heq]
        | some dl =>
          cases hfu : firstUnsatisfied sat dl with
          | none => simp [getNextDependency, hmem, hsame, heq, hfu]
          | some n =>
            simp only [getNextDependency, if_neg hmem, hsame, heq, hfu]
            exact ih _ _

lemma resolver_eq_addDeps_nil {deps : List (String × List String)} {x : String}
    (h : lookupDeps deps x = none) (sat : List String) (t : String) :
    getNextDependency (addDeps deps x []) sat ((addDeps deps x []).length + 1) [] t
      = getNextDependency deps sat (deps.length + 1) [] t := by
  rw [getNextDependency_addDeps_nil h sat _ [] t]
  apply getNextDependency_fuel_irrel
  · have h1 := keysOutside_le_length deps ([] : List String)
    have h2 := addDeps_length_ge deps x []
    omega
  · exact Nat.lt_succ_of_le (keysOutside_le_length _ _)

lemma view_consEmit (x : String) (r : RunResult) :
    (r.consEmit x).view = match r.view with
      | .done l => .done (x :: l)
      | .cycleAt i l => .cycleAt i (x :: l)
      | .noFuel l => .noFuel (x :: l) := by
  cases r <;> rfl

lemma iterNext_view_addDeps_nil {g1 g2 : DepGraph} {x : String}
    (hdep : g1.dependencies = addDeps g2.dependencies x [])
    (hlk : lookupDeps g2.dependencies x = none)
    (hsat : g1.satisfied = g2.satisfied) (htgt : g1.target = g2.target) :
    g1.iterNext.view = g2.iterNext.view := by
  cases htv : g2.target with
  | none =>
    have h1 : g1.target = none := htgt.trans htv
    rw [iterNext_eq_finished_of_target_none h1, iterNext_eq_finished_of_target_none htv]; rfl
  | some t =>
    have h1 : g1.target = some t := htgt.trans htv
    by_cases hts : t ∈ g2.satisfied
    · have hts1 : t ∈ g1.satisfied := by rw [hsat]; exact hts
      rw [iterNext_eq_finished_of_satisfied h1 hts1, iterNext_eq_finished_of_satisfied htv hts]; rfl
    · have hts1 : t ∉ g1.satisfied := by rw [hsat]; exact hts
      have hreseq : getNextDependency g1.dependencies g1.satisfied (g1.dependencies.length + 1) [] t
          = getNextDependency g2.dependencies g2.satisfied (g2.dependencies.length + 1) [] t := by
        rw [hdep, hsat]
        exact resolver_eq_addDeps_nil hlk g2.satisfied t
      cases hres : getNextDependency g2.dependencies g2.satisfied (g2.dependencies.length + 1) [] t
        with
      | ok item path =>
        rw [iterNext_eq_yields h1 hts1 (hreseq.trans hres), iterNext_eq_yields htv hts hres]; rfl
      | cycleAt item path =>
        rw [iterNext_eq_cycle h1 hts1 (hreseq.trans hres), iterNext_eq_cycle htv hts hres]; rfl
      | noFuel =>
        have hb : keysOutside g2.dependencies [] < g2.dependencies.length + 1 :=
          Nat.lt_succ_of_le (keysOutside_le_length _ _)
        exact absurd hres (getNextDependency_ne_noFuel _ _ _ _ _ hb)

lemma runSatisfying_addDeps_nil {x : String} :
    ∀ fuel (g1 g2 : DepGraph),
      g1.dependencies = addDeps g2.dependencies x [] →
      lookupDeps g2.dependencies x = none →
      g1.satisfied = g2.satisfied → g1.target = g2.target →
      (runSatisfying fuel g1).view = (runSatisfying fuel g2).view := by
  intro fuel
  induction fuel with
  | zero => intro g1 g2 _ _ _ _; rfl
  | succ f ih =>
    intro g1 g2 hdep hlk hsat htgt
    cases htv : g2.target with
    | none =>
      have h1 : g1.target = none := htgt.trans htv
      rw [runSatisfying, runSatisfying, satisfyingNext_eq_finished_of_target_none h1,
        satisfyingNext_eq_finished_of_target_none htv]
      rfl
    | some t =>
      have h1 : g1.target = some t := htgt.trans htv
      by_cases hts : t ∈ g2.satisfied
      · have hts1 : t ∈ g1.satisfied := by rw [hsat]; exact hts
        rw [runSatisfying, runSatisfying, satisfyingNext_eq_finished_of_satisfied h1 hts1,
          satisfyingNext_eq_finished_of_satisfied htv hts]
        rfl
      · have hts1 : t ∉ g1.satisfied := by rw [hsat]; exact hts
        have hreseq : getNextDependency g1.dependencies g1.satisfied (g1.dependencies.length + 1) [] t
            = getNextDependency g2.dependencies g2.satisfied (g2.dependencies.length + 1) [] t := by
          rw [hdep, hsat]
          exact resolver_eq_addDeps_nil hlk g2.satisfied t
        cases hres : getNextDependency g2.dependencies g2.satisfied (g2.dependencies.length + 1) [] t
          with
        | ok item path =>
          rw [runSatisfying, runSatisfying, satisfyingNext_eq_yields h1 hts1 (hreseq.trans hres),
            satisfyingNext_eq_yields htv hts hres]
          simp only [view_consEmit]
          rw [ih { g1 with curpath := path, satisfied := satInsert g1.satisfied item }
            { g2 with curpath := path, satisfied := satInsert g2.satisfied item }
            hdep hlk (by rw [hsat]) htgt]
        | cycleAt item path =>
          rw [runSatisfying, runSatisfying, satisfyingNext_eq_cycle h1 hts1 (hreseq.trans hres),
            satisfyingNext_eq_cycle htv hts hres]
          rfl
        | noFuel =>
          have hb : keysOutside g2.dependencies [] < g2.dependencies.length + 1 :=
            Nat.lt_succ_of_le (keysOutside_le_length _ _)
          exact absurd hres (getNextDependency_ne_noFuel _ _ _ _ _ hb)

/-- Claim C10: registering an item with an empty dependency list is
behaviourally equivalent to leaving the item unregistered: the resolver
is unchanged on every input, and both the manual and the auto
acknowledge producers yield identical observable sequences. -/
theorem c10_empty_registration (g : DepGraph) (x : String)
    (hx : lookupDeps g.dependencies x = none) :
    (∀ sat fuel path thing,
      getNextDependency (g.registerDependencies x []).dependencies sat fuel path thing
        = getNextDependency g.dependencies sat fuel path thing) ∧
    (g.registerDependencies x []).iterNext.view = g.iterNext.view ∧
    (∀ fuel, (runSatisfying fuel (g.registerDependencies x [])).view
      = (runSatisfying fuel g).view) := by
  refine ⟨?_, ?_, ?_⟩
  · intro sat fuel path thing
    exact getNextDependency_addDeps_nil hx sat fuel path thing
  · exact iterNext_view_addDeps_nil rfl hx rfl rfl
  · intro fuel
    exact runSatisfying_addDeps_nil fuel (g.registerDependencies x []) g rfl hx rfl rfl

/-- Witness for C10: registering `"c"` with no dependencies on a small
graph leaves the observable behaviour unchanged. -/
theorem c10_witness :
    lookupDeps c10Base.dependencies "c" = none ∧
    (c10Base.registerDependencies "c" []).iterNext.view = c10Base.iterNext.view ∧
    (runSatisfying 5 (c10Base.registerDependencies "c" [])).view
      = (runSatisfying 5 c10Base).view := by
  refine ⟨by decide, ?_, ?_⟩
  · exact (c10_empty_registration c10Base "c" (by decide)).2.1
  · exact (c10_empty_registration c10Base "c" (by decide)).2.2 5

lemma satInsert_nodup {v : List String} (h : v.Nodup) (d : String) :
    (satInsert v d).Nodup := by
  unfold satInsert
  split
  · exact h
  · next hd => simp [List.nodup_append, h, hd]

lemma satInsert_count {v : List String} (h : v.Nodup) (d : String) :
    (satInsert v d).count d = 1 := by
  unfold satInsert
  split
  · next hd => exact List.count_eq_one_of_mem h hd
  · next hd =>
    rw [List.count_append]
    have h0 : v.count d = 0 := List.count_eq_zero.mpr hd
    simp [h0]

lemma satInsert_self_idem (v : List String) (d : String) :
    satInsert (satInsert v d) d = satInsert v d :=
  satInsert_of_mem (self_mem_satInsert _ _)

lemma addDepSet_idem (l : List (String × List String)) (n d : String) :
    addDepSet (addDepSet l n d) n d = addDepSet l n d := by
  induction l with
  | nil =>
    simp only [addDepSet]
    rw [satInsert_of_mem (by simp)]
    simp
  | cons p rest ih =>
    obtain ⟨k0, v0⟩ := p
    by_cases hk : k0 = n
    · simp [addDepSet, hk, satInsert_self_idem]
    · simp [addDepSet, hk, ih]

lemma lookup_addDepSet_self (l : List (String × List String)) (n d : String) :
    ∃ v, lookupDeps (addDepSet l n d) n = some v ∧ d ∈ v ∧
      ((∀ k w, (k, w) ∈ l → w.Nodup) → v.Nodup) := by
  induction l with
  | nil =>
    refine ⟨[d], by simp [addDepSet, lookupDeps], by simp, fun _ => by simp⟩
  | cons p rest ih =>
    obtain ⟨k0, v0⟩ := p
    by_cases hk : k0 = n
    · refine ⟨satInsert v0 d, ?_, self_mem_satInsert _ _, ?_⟩
      · simp [addDepSet, hk, lookupDeps]
      · intro hinv
        exact satInsert_nodup (hinv k0 v0 (List.mem_cons_self _ _)) d
    · obtain ⟨v, hv, hd, hnd⟩ := ih
      refine ⟨v, ?_, hd, fun hinv => hnd fun k w hw => hinv k w (List.mem_cons_of_mem _ hw)⟩
      simp [addDepSet, hk, lookupDeps, hv]

lemma addDepSet_values_nodup {l : List (String × List String)} {n d : String}
    (hinv : ∀ k v, (k, v) ∈ l → v.Nodup) :
    ∀ k v, (k, v) ∈ addDepSet l n d → v.Nodup := by
  induction l with
  | nil =>
    intro k v hv
    simp [addDepSet] at hv
    simp [hv.2]
  | cons p rest ih =>
    obtain ⟨k0, v0⟩ := p
    intro k v hv
    by_cases hk : k0 = n
    · simp only [addDepSet, if_pos hk] at hv
      rcases List.mem_cons.mp hv with heq | hrest
      · have := hinv k0 v0 (List.mem_cons_self _ _)
        cases heq
        exact satInsert_nodup this d
      · exact hinv k v (List.mem_cons_of_mem _ hrest)
    · simp only [addDepSet, if_neg hk] at hv
      rcases List.mem_cons.mp hv with heq | hrest
      · cases heq
        exact hinv _ _ (List.mem_cons_self _ _)
      · exact ih (fun a b hb => hinv a b (List.mem_cons_of_mem _ hb)) k v hrest

/-- Counterexample to C3 as stated: the `dglr.rs` engine (`Vec` edge
collections) duplicates the edge when the same pair is registered
twice, so its reachable states do contain duplicated edges. -/
theorem c3_counterexample :
    lookupDeps ((DepGraph.new.registerDependency "a" "b").registerDependency "a" "b").dependencies
        "a" = some ["b", "b"] ∧
    ¬ (["b", "b"].count "b" = 1) := by
  decide

/-- Claim C3 (amended): in the `src/lib.rs` engine, whose edge
collections are `HashSet`s, registering the same pair twice equals
registering it once, duplicate-freeness of every edge collection is
preserved, and the item's edge collection ends with exactly one
occurrence of the dependency; the `src/dglr.rs` engine instead keeps
the duplicate. -/
theorem c3_set_engine_deduplicates (g : SetDepGraph) (n d : String)
    (hinv : ∀ k v, (k, v) ∈ g.dependencies → v.Nodup) :
    ((g.registerDependency n d).registerDependency n d = g.registerDependency n d) ∧
    (∀ k v, (k, v) ∈ (g.registerDependency n d).dependencies → v.Nodup) ∧
    (∀ v, lookupDeps ((g.registerDependency n d).registerDependency n d).dependencies n
      = some v → v.count d = 1) := by
  refine ⟨?_, ?_, ?_⟩
  · simp [SetDepGraph.registerDependency, addDepSet_idem]
  · exact addDepSet_values_nodup hinv
  · intro v hv
    simp only [SetDepGraph.registerDependency, addDepSet_idem] at hv
    obtain ⟨w, hw, hd, hnd⟩ := lookup_addDepSet_self g.dependencies n d
    rw [hw] at hv
    cases hv
    exact List.count_eq_one_of_mem (hnd hinv) hd

/-- Witness for the amended C3 at the empty `src/lib.rs` engine. -/
theorem c3_witness :
    (∀ k v, (k, v) ∈ SetDepGraph.new.dependencies → v.Nodup) ∧
    ((SetDepGraph.new.registerDependency "a" "b").registerDependency "a" "b"
      = SetDepGraph.new.registerDependency "a" "b") ∧
    (∀ v, lookupDeps
        (((SetDepGraph.new.registerDependency "a" "b").registerDependency "a" "b").dependencies)
        "a" = some v → v.count "b" = 1) := by
  have hinv : ∀ k v, (k, v) ∈ SetDepGraph.new.dependencies → v.Nodup := by
    simp [SetDepGraph.new]
  have h := c3_set_engine_deduplicates SetDepGraph.new "a" "b" hinv
  exact ⟨hinv, h.1, h.2.2⟩
